import Mathlib

/-!
Verification development for the DICOM viewer MPR engine
(source: src/DICOM_Viewer.cpp, class MainFrame).

The definitions below are a shallow embedding of the volume-assembly and
multi-planar-reconstruction code of the viewer:

* series grouping and selection  — MainFrame::OnLoadBtn, lines 424-444;
* slice decoding, metadata capture and volume packing — lines 449-495;
* plane extraction, windowing and cursor mapping — MainFrame::UpdateOneView,
  lines 513-570.

Machine integers of the C++ code are modelled as Nat/Int with explicit
reduction modulo 2^64 where the code computes in size_t; the C++ double
arithmetic of the windowing transform and of the cursor mapper is modelled
over the rationals, which is exact for every computation the theorems below
evaluate (all of them stay on dyadic values that IEEE doubles represent and
combine exactly).
-/

/-- One discovered .dcm file as seen by the series-grouping scan in
OnLoadBtn: whether DcmFileFormat::loadFile succeeded, and the
SeriesInstanceUID string when findAndGetString produced one. -/
structure DFile where
  path : String
  loads : Bool
  uid : Option String
deriving DecidableEq

/-- Insertion into the key-ordered association list that models
std::map<std::string, std::vector<std::string>> seriesMap: the entry list
is kept strictly sorted by key, and pushing to an existing key appends to
the back of its vector, exactly as seriesMap[uid].push_back does. -/
def mapInsert (k : String) (v : String) : List (String × List String) → List (String × List String)
  | [] => [(k, [v])]
  | e :: rest =>
    if k = e.1 then (e.1, e.2 ++ [v]) :: rest
    else if k < e.1 then (k, [v]) :: e :: rest
    else e :: mapInsert k v rest

/-- One step of the scanning loop (lines 428-436): a file contributes to
seriesMap only when it loads and a series UID string was read. -/
def scanInsert (m : List (String × List String)) (f : DFile) : List (String × List String) :=
  if f.loads then
    match f.uid with
    | some u => mapInsert u f.path m
    | none => m
  else m

/-- The seriesMap built by the scanning loop over the discovered files, in
discovery order. -/
def buildSeriesMap (files : List DFile) : List (String × List String) :=
  files.foldl scanInsert []

/-- The selection loop of lines 439-442: starting from bestUID = "" and
maxCount = 0, walk the map in its iteration order (ascending key order)
and replace the best entry only on a strictly greater size. -/
def selectAux : (String × Nat) → List (String × List String) → String × Nat
  | acc, [] => acc
  | acc, e :: rest => selectAux (if acc.2 < e.2.length then (e.1, e.2.length) else acc) rest

/-- The series the viewer keeps: the result of the strict-maximum scan over
the key-ordered seriesMap. -/
def selectBest (m : List (String × List String)) : String × Nat :=
  selectAux ("", 0) m

/-- One file of the selected series, as consumed by the volume build loop of
lines 451-478.  loads models ff.loadFile().good(); rows/cols are the
DCM_Rows/DCM_Columns tags (also the dimensions DicomImage reports);
spacing is the optional DCM_PixelSpacing pair (row spacing, column
spacing); thickness, pname and pid are the optional thickness and patient
tags; decodeOk models the DicomImage status being EIS_Normal with non-null
16-bit output data; inst is DCM_InstanceNumber (0 when the tag is absent,
matching the Sint32 inst = 0 default); pixels is the decoded 16-bit sample
buffer. -/
structure Source where
  loads : Bool
  rows : Nat
  cols : Nat
  spacing : Option (ℚ × ℚ)
  thickness : Option ℚ
  pname : Option String
  pid : Option String
  decodeOk : Bool
  inst : ℤ
  pixels : List ℤ
deriving DecidableEq

/-- A decoded slice kept by the build loop: instance number plus pixel
buffer, mirroring struct SliceRaw of the C++ source. -/
structure SliceRaw where
  inst : ℤ
  pixels : List ℤ
deriving DecidableEq

/-- The volume-related mutable state of MainFrame: volumeData, the three
extents, the three spacing members and the patient strings. -/
structure ViewerState where
  volumeData : List ℤ
  volWidth : Nat
  volHeight : Nat
  volDepth : Nat
  pxSpcX : ℚ
  pxSpcY : ℚ
  sliceThick : ℚ
  patientName : String
  patientID : String
deriving DecidableEq

/-- One iteration of the decode loop of lines 451-478.  When a file loads
and volWidth is still 0, the canonical dimensions, spacing, thickness and
patient strings are taken from it (absent tags leave the previous member
values untouched, exactly as findAndGet* leaves its output untouched on
failure).  The slice is retained when it decodes and its dimensions equal
the canonical ones. -/
def scanStep (acc : ViewerState × List SliceRaw) (f : Source) : ViewerState × List SliceRaw :=
  if f.loads = true then
    let st1 :=
      if acc.1.volWidth = 0 then
        { acc.1 with
          volWidth := f.cols
          volHeight := f.rows
          pxSpcY := (f.spacing.map Prod.fst).getD acc.1.pxSpcY
          pxSpcX := (f.spacing.map Prod.snd).getD acc.1.pxSpcX
          sliceThick := f.thickness.getD acc.1.sliceThick
          patientName := f.pname.getD acc.1.patientName
          patientID := f.pid.getD acc.1.patientID }
      else acc.1
    if f.decodeOk = true ∧ f.cols = st1.volWidth ∧ f.rows = st1.volHeight then
      (st1, acc.2 ++ [⟨f.inst, f.pixels⟩])
    else (st1, acc.2)
  else acc

/-- The whole decode loop, started after line 449 has already reset
volWidth and volHeight to 0. -/
def scanFiles (s : ViewerState) (files : List Source) : ViewerState × List SliceRaw :=
  files.foldl scanStep ({ s with volWidth := 0, volHeight := 0 }, [])

/-- Insertion of a slice into an ascending run, keeping earlier elements in
front of later elements with equal instance number. -/
def insertAsc (a : SliceRaw) : List SliceRaw → List SliceRaw
  | [] => [a]
  | b :: rest => if b.inst < a.inst then b :: insertAsc a rest else a :: b :: rest

/-- A sort of the retained slices ascending by instance number.  The C++
code calls std::sort, whose contract fixes only that the result is a
sorted permutation; the relative order it gives slices of equal instance
number is unspecified (see cppSortPost).  This insertion sort is one
admissible realization, used to give the success path of the build a
definite value. -/
def sortSlices : List SliceRaw → List SliceRaw
  | [] => []
  | a :: rest => insertAsc a (sortSlices rest)

/-- The postcondition std::sort(tempSlices, comparator on instance) is
specified to establish: the output is a permutation of the input that is
pairwise nondecreasing on the instance number.  Nothing more — in
particular no stability — is promised. -/
def cppSortPost (inp out : List SliceRaw) : Prop :=
  inp.Perm out ∧ out.Pairwise (fun a b => a.inst ≤ b.inst)

/-- The state transition performed by the body of OnLoadBtn from line 449
on, given the files of the selected series: scan and decode every file,
return early (keeping volumeData and volDepth, but not the members already
overwritten by the scan) when no slice was retained, and otherwise pack
the sorted slices into a fresh volume. -/
def loadTransition (s : ViewerState) (files : List Source) : ViewerState :=
  let acc := scanFiles s files
  if acc.2 = [] then acc.1
  else
    let sorted := sortSlices acc.2
    { acc.1 with
      volDepth := sorted.length
      volumeData := (sorted.map SliceRaw.pixels).flatten }

/-- Reduction of a C++ int to the size_t value it converts to. -/
def u64 (z : ℤ) : Nat := (z % (2 ^ 64 : ℤ)).toNat

/-- The axial sampling offset off = (size_t)sliceIdx * w * h of line 523,
computed in size_t arithmetic. -/
def axialRawOff (z : ℤ) (w h : Nat) : Nat := (u64 z * (w * h)) % 2 ^ 64

/-- Axial extraction (viewType 0, lines 521-524): one contiguous w*h block
at the computed offset when the size_t guard off + w*h <= size passes,
otherwise an empty buffer (the subsequent buf.empty() test then returns
without drawing). -/
def axialPlane (vol : List ℤ) (w h : Nat) (z : ℤ) : List ℤ :=
  let off := axialRawOff z w h
  if (off + w * h) % 2 ^ 64 ≤ vol.length then (vol.drop off).take (w * h) else []

/-- One coronal output row (lines 528-531): W samples copied from
base = z*W*H + sliceIdx*W when the size_t guard base + W <= size passes,
otherwise the zero-filled row left by buf.resize. -/
def coronalRow (vol : List ℤ) (volW volH : Nat) (r : ℤ) (z : Nat) : List ℤ :=
  let base := (z * (volW * volH) + u64 r * volW) % 2 ^ 64
  if (base + volW) % 2 ^ 64 ≤ vol.length then (vol.drop base).take volW
  else List.replicate volW 0

/-- Coronal extraction (viewType 1): a plane of volDepth rows of width
volWidth, row z sampling row sliceIdx of slice z. -/
def coronalPlane (vol : List ℤ) (volW volH volD : Nat) (r : ℤ) : List ℤ :=
  (List.range volD).flatMap (coronalRow vol volW volH r)

/-- Sagittal extraction (viewType 2, lines 532-540): plane of volDepth rows
of width volHeight; each sample is fetched through the per-element guard
idx < size and left at the zero fill otherwise. -/
def sagittalPlane (vol : List ℤ) (volW volH volD : Nat) (c : ℤ) : List ℤ :=
  (List.range volD).flatMap fun z =>
    (List.range volH).map fun y =>
      let idx := (z * (volW * volH) + y * volW + u64 c) % 2 ^ 64
      if idx < vol.length then vol.getD idx 0 else 0

/-- The window-width clamp of line 546: if(ww < 1) ww = 1. -/
def wwClamp (ww : ℤ) : ℤ := if ww < 1 then 1 else ww

/-- lower = wl - ww / 2.0 of line 547 (exact: doubles represent every
integer and every half-integer in this range exactly). -/
def wlLower (wl ww : ℤ) : ℚ := (wl : ℚ) - (wwClamp ww : ℚ) / 2

/-- The per-sample windowing transform of lines 550-555.  The final store
(unsigned char)val truncates the nonnegative double toward zero, hence the
floor in the open branch. -/
def windowPixel (wl ww v : ℤ) : ℤ :=
  let lower := wlLower wl ww
  let range : ℚ := (wwClamp ww : ℚ)
  if (v : ℚ) ≤ lower then 0
  else if lower + range ≤ (v : ℚ) then 255
  else ⌊((v : ℚ) - lower) / range * 255⌋

/-- Modelled from the spec: the windowing transform as §4.4 words it, with
round((v - lower) / range * 255) in the open branch; declared only to be
compared against windowPixel, which is the embedding of the code. -/
def windowPixelSpec (wl ww v : ℤ) : ℤ :=
  let lower := wlLower wl ww
  let range : ℚ := (wwClamp ww : ℚ)
  if (v : ℚ) ≤ lower then 0
  else if lower + range ≤ (v : ℚ) then 255
  else round (((v : ℚ) - lower) / range * 255)

/-- The effective spacing used by UpdateOneView lines 517-519: the raw
member when positive, else 1.0.  The substitution happens per render call;
the recorded member itself is left untouched. -/
def effSpacing (q : ℚ) : ℚ := if 0 < q then q else 1

/-- Value of a C++ double expression as far as the cursor mapper needs it:
a finite rational, or the infinity and NaN produced by dividing a nonzero
or zero numerator by zero. -/
inductive FVal where
  | nan : FVal
  | inf : FVal
  | fin : ℚ → FVal
deriving DecidableEq

/-- IEEE division for the cases the cursor mapper can reach: x/0 is NaN for
x = 0 and an infinity otherwise; other quotients are finite.  (The finite
quotient is modelled exactly; the cursor claims only evaluate it where the
IEEE result is exact.) -/
def fdiv (a b : ℚ) : FVal :=
  if b = 0 then (if a = 0 then .nan else .inf) else .fin (a / b)

/-- The cursor mapping of lines 568-569: relX = (double)cross1 / (w - 1),
with the denominator computed in int arithmetic. -/
def relCoord (idx dim : ℤ) : FVal := fdiv (idx : ℚ) ((dim : ℚ) - 1)

/-- C3 counterexample: the claim says a raw sample maps to
round((v - lower) / range * 255) in the open branch, but the code stores
the double through (unsigned char), which truncates.  At level 40,
width 400, sample 40 the exact intermediate value is 127.5: the code
yields 127 while the claimed rounding yields 128. -/
theorem c3_cex :
    windowPixel 40 400 40 = 127 ∧ windowPixelSpec 40 400 40 = 128 ∧ (127 : ℤ) ≠ 128 := by
  refine ⟨?_, ?_, by decide⟩
  · norm_num [windowPixel, wlLower, wwClamp]
  · norm_num [windowPixelSpec, wlLower, wwClamp, round_eq]

/-- C3 (amended): with width clamped to a minimum of 1, lower = level -
width/2 and range = width, the transform maps v ≤ lower to 0, v ≥ lower +
range to 255, and a v strictly in between to the TRUNCATION
floor((v - lower) / range * 255), which is never below the claimed rounded
value minus 1; the output always lies in [0, 255].  Concretely (see
c3_cex and c3_witness) level 40 and width 400 send -160 to 0, 240 to 255
and 40 to 127, within the ±1 the claim grants around 128. -/
theorem c3_window_props (wl ww v : ℤ) :
    (0 ≤ windowPixel wl ww v ∧ windowPixel wl ww v ≤ 255) ∧
    ((v : ℚ) ≤ wlLower wl ww → windowPixel wl ww v = 0) ∧
    (wlLower wl ww + (wwClamp ww : ℚ) ≤ (v : ℚ) → windowPixel wl ww v = 255) ∧
    (wlLower wl ww < (v : ℚ) → (v : ℚ) < wlLower wl ww + (wwClamp ww : ℚ) →
      windowPixel wl ww v = ⌊((v : ℚ) - wlLower wl ww) / (wwClamp ww : ℚ) * 255⌋ ∧
      0 ≤ windowPixelSpec wl ww v - windowPixel wl ww v ∧
      windowPixelSpec wl ww v - windowPixel wl ww v ≤ 1) := by
  have hclamp : (1 : ℤ) ≤ wwClamp ww := by
    unfold wwClamp; split <;> omega
  have hr : (1 : ℚ) ≤ (wwClamp ww : ℚ) := by exact_mod_cast hclamp
  have hrpos : (0 : ℚ) < (wwClamp ww : ℚ) := lt_of_lt_of_le one_pos hr
  rcases le_or_lt (v : ℚ) (wlLower wl ww) with h1 | h1
  · have hv : windowPixel wl ww v = 0 := by
      simp only [windowPixel]; rw [if_pos h1]
    refine ⟨⟨by omega, by omega⟩, fun _ => hv, fun h2 => absurd h2 (by linarith), fun h2 _ => absurd h2 (by linarith)⟩
  · rcases le_or_lt (wlLower wl ww + (wwClamp ww : ℚ)) (v : ℚ) with h2 | h2
    · have hv : windowPixel wl ww v = 255 := by
        simp only [windowPixel]; rw [if_neg (not_le.mpr h1), if_pos h2]
      refine ⟨⟨by omega, by omega⟩, fun h3 => absurd h3 (not_le.mpr h1), fun _ => hv,
        fun _ h3 => absurd h3 (not_lt.mpr h2)⟩
    · have hv : windowPixel wl ww v = ⌊((v : ℚ) - wlLower wl ww) / (wwClamp ww : ℚ) * 255⌋ := by
        simp only [windowPixel]; rw [if_neg (not_le.mpr h1), if_neg (not_le.mpr h2)]
      have hs : windowPixelSpec wl ww v = round (((v : ℚ) - wlLower wl ww) / (wwClamp ww : ℚ) * 255) := by
        simp only [windowPixelSpec]; rw [if_neg (not_le.mpr h1), if_neg (not_le.mpr h2)]
      have hxpos : (0 : ℚ) < ((v : ℚ) - wlLower wl ww) / (wwClamp ww : ℚ) * 255 := by
        have : (0 : ℚ) < (v : ℚ) - wlLower wl ww := by linarith
        positivity
      have hxlt : ((v : ℚ) - wlLower wl ww) / (wwClamp ww : ℚ) * 255 < 255 := by
        have hq : ((v : ℚ) - wlLower wl ww) / (wwClamp ww : ℚ) < 1 :=
          (div_lt_one hrpos).mpr (by linarith)
        nlinarith
      have hfl0 : 0 ≤ windowPixel wl ww v := by
        rw [hv]; exact Int.floor_nonneg.mpr (le_of_lt hxpos)
      have hfl255 : windowPixel wl ww v ≤ 255 := by
        rw [hv]
        have : ⌊((v : ℚ) - wlLower wl ww) / (wwClamp ww : ℚ) * 255⌋ < (255 : ℤ) :=
          Int.floor_lt.mpr (by exact_mod_cast hxlt)
        omega
      have hdiff0 : 0 ≤ windowPixelSpec wl ww v - windowPixel wl ww v := by
        rw [hv, hs, round_eq]
        have := Int.floor_le_floor (α := ℚ)
          (le_add_of_nonneg_right (by norm_num : (0 : ℚ) ≤ 1 / 2)
            : ((v : ℚ) - wlLower wl ww) / (wwClamp ww : ℚ) * 255
              ≤ ((v : ℚ) - wlLower wl ww) / (wwClamp ww : ℚ) * 255 + 1 / 2)
        omega
      have hdiff1 : windowPixelSpec wl ww v - windowPixel wl ww v ≤ 1 := by
        rw [hv, hs, round_eq]
        have h12 := Int.floor_le_floor (α := ℚ)
          (by linarith : ((v : ℚ) - wlLower wl ww) / (wwClamp ww : ℚ) * 255 + 1 / 2
              ≤ ((v : ℚ) - wlLower wl ww) / (wwClamp ww : ℚ) * 255 + 1)
        rw [Int.floor_add_one] at h12
        omega
      exact ⟨⟨hfl0, hfl255⟩, fun h3 => absurd h3 (not_le.mpr h1),
        fun h3 => absurd h3 (not_le.mpr h2), fun _ _ => ⟨hv, hdiff0, hdiff1⟩⟩

/-- C3 witness: the amended theorem applied at level 0, width 2, sample 0,
whose open-branch hypotheses hold. -/
theorem c3_witness :
    windowPixel 0 2 0 = ⌊(((0 : ℤ) : ℚ) - wlLower 0 2) / (wwClamp 2 : ℚ) * 255⌋ ∧
    0 ≤ windowPixelSpec 0 2 0 - windowPixel 0 2 0 ∧
    windowPixelSpec 0 2 0 - windowPixel 0 2 0 ≤ 1 :=
  (c3_window_props 0 2 0).2.2.2 (by norm_num [wlLower, wwClamp])
    (by norm_num [wlLower, wwClamp])

/-- C7 counterexample: for an in-plane dimension of 1 and index 0 the code
computes (double)0 / (1 - 1), a 0/0 division: the result is NaN, not a
"none" sentinel, and a division by zero does occur. -/
theorem c7_cex : relCoord 0 1 = FVal.nan ∧ relCoord 0 1 ≠ FVal.fin 0 := by
  have h : relCoord 0 1 = FVal.nan := by norm_num [relCoord, fdiv]
  exact ⟨h, by rw [h]; decide⟩

/-- C7 (amended): for every dimension d > 1 the mapper returns exactly 0
at index 0 and exactly 1 at index d - 1 (both IEEE-exact); for d = 1 the
code divides by zero and index 0 yields NaN — the paint guard
crossX >= 0 then treats the NaN like the no-cross-hair sentinel, but no
distinct sentinel value is produced. -/
theorem c7_cursor_endpoints (d : ℤ) (hd : 1 < d) :
    relCoord 0 d = FVal.fin 0 ∧ relCoord (d - 1) d = FVal.fin 1 ∧ relCoord 0 1 = FVal.nan := by
  have hdq : (1 : ℚ) < (d : ℚ) := by exact_mod_cast hd
  have hden : ((d : ℚ) - 1) ≠ 0 := by
    intro h; nlinarith
  refine ⟨?_, ?_, by norm_num [relCoord, fdiv]⟩
  · simp [relCoord, fdiv, hden]
  · have hnum : (((d - 1 : ℤ) : ℚ)) = (d : ℚ) - 1 := by push_cast; ring
    simp [relCoord, fdiv, hden, hnum, div_self hden]

/-- C7 witness: the amended theorem applied at dimension 3. -/
theorem c7_witness :
    relCoord 0 3 = FVal.fin 0 ∧ relCoord (3 - 1) 3 = FVal.fin 1 ∧ relCoord 0 1 = FVal.nan :=
  c7_cursor_endpoints 3 (by norm_num)

/-- C8: the axial bounds guard is computed in size_t arithmetic, so for the
negative slice index -1 on a 2 x 2 x 2 volume (buffer length 8) the guard
off + w*h <= size wraps to 0 <= 8 and passes, while the sampling offset
itself is 2^64 - 4, far outside the buffer: the code then reads out of
bounds instead of skipping, contradicting the claim; the embedding also
shows the plane produced on this path is empty rather than black. -/
theorem c8_guard_wraps_oob :
    (axialRawOff (-1) 2 2 + 2 * 2) % 2 ^ 64 ≤ 8 ∧
    8 < axialRawOff (-1) 2 2 ∧
    axialPlane (List.replicate 8 (0 : ℤ)) 2 2 (-1) = [] := by
  decide

/-- C6: the contract of std::sort with the instance-number comparator
allows, for the concrete input of two slices with equal acquisition index
5 and distinct pixel buffers, an output in which their relative order is
swapped: stability is not guaranteed by the sort the code calls. -/
theorem c6_sort_contract_allows_unstable :
    cppSortPost [⟨5, [1]⟩, ⟨5, [2]⟩] [⟨5, [2]⟩, ⟨5, [1]⟩] ∧
    ([⟨5, [2]⟩, ⟨5, [1]⟩] : List SliceRaw) ≠ [⟨5, [1]⟩, ⟨5, [2]⟩] := by
  refine ⟨⟨List.Perm.swap (⟨5, [2]⟩ : SliceRaw) (⟨5, [1]⟩ : SliceRaw) [], ?_⟩, by decide⟩
  simp [List.pairwise_cons]

lemma mapInsert_ne_nil (k v : String) (m : List (String × List String)) :
    mapInsert k v m ≠ [] := by
  cases m with
  | nil => simp [mapInsert]
  | cons e rest =>
    simp only [mapInsert]
    split
    · simp
    · split <;> simp

lemma mem_mapInsert_key (k v : String) (m : List (String × List String)) :
    ∀ e ∈ mapInsert k v m, e.1 = k ∨ ∃ e0 ∈ m, e.1 = e0.1 := by
  induction m with
  | nil =>
    intro e he
    simp only [mapInsert, List.mem_singleton] at he
    subst he; exact Or.inl rfl
  | cons b rest ih =>
    intro e he
    simp only [mapInsert] at he
    by_cases h1 : k = b.1
    · rw [if_pos h1] at he
      rcases List.mem_cons.mp he with rfl | he2
      · exact Or.inr ⟨b, List.mem_cons_self b rest, rfl⟩
      · exact Or.inr ⟨e, List.mem_cons_of_mem b he2, rfl⟩
    · rw [if_neg h1] at he
      by_cases h2 : k < b.1
      · rw [if_pos h2] at he
        rcases List.mem_cons.mp he with rfl | he2
        · exact Or.inl rfl
        · exact Or.inr ⟨e, he2, rfl⟩
      · rw [if_neg h2] at he
        rcases List.mem_cons.mp he with rfl | he2
        · exact Or.inr ⟨e, List.mem_cons_self e rest, rfl⟩
        · rcases ih e he2 with h3 | ⟨e0, he0, h3⟩
          · exact Or.inl h3
          · exact Or.inr ⟨e0, List.mem_cons_of_mem b he0, h3⟩

lemma mapInsert_pairwise (k v : String) (m : List (String × List String))
    (h : m.Pairwise (fun a b => a.1 < b.1)) :
    (mapInsert k v m).Pairwise (fun a b => a.1 < b.1) := by
  induction m with
  | nil => simp [mapInsert]
  | cons b rest ih =>
    rcases List.pairwise_cons.mp h with ⟨hb, hrest⟩
    simp only [mapInsert]
    by_cases h1 : k = b.1
    · rw [if_pos h1]
      exact List.pairwise_cons.mpr ⟨hb, hrest⟩
    · rw [if_neg h1]
      by_cases h2 : k < b.1
      · rw [if_pos h2]
        refine List.pairwise_cons.mpr ⟨?_, List.pairwise_cons.mpr ⟨hb, hrest⟩⟩
        intro e he
        rcases List.mem_cons.mp he with rfl | he2
        · exact h2
        · exact lt_trans h2 (hb e he2)
      · rw [if_neg h2]
        have hbk : b.1 < k := by
          rcases lt_trichotomy k b.1 with h3 | h3 | h3
          · exact absurd h3 h2
          · exact absurd h3 h1
          · exact h3
        refine List.pairwise_cons.mpr ⟨?_, ih hrest⟩
        intro e he
        rcases mem_mapInsert_key k v rest e he with h3 | ⟨e0, he0, h3⟩
        · rw [h3]; exact hbk
        · rw [h3]; exact hb e0 he0

lemma mapInsert_vals_ne_nil (k v : String) (m : List (String × List String))
    (h : ∀ e ∈ m, e.2 ≠ []) : ∀ e ∈ mapInsert k v m, e.2 ≠ [] := by
  induction m with
  | nil =>
    intro e he
    simp only [mapInsert, List.mem_singleton] at he
    subst he; simp
  | cons b rest ih =>
    have hb := h b (List.mem_cons_self b rest)
    have hrest : ∀ e ∈ rest, e.2 ≠ [] := fun e he => h e (List.mem_cons_of_mem b he)
    intro e he
    simp only [mapInsert] at he
    by_cases h1 : k = b.1
    · rw [if_pos h1] at he
      rcases List.mem_cons.mp he with rfl | he2
      · simp
      · exact hrest e he2
    · rw [if_neg h1] at he
      by_cases h2 : k < b.1
      · rw [if_pos h2] at he
        rcases List.mem_cons.mp he with rfl | he2
        · simp
        · exact h e he2
      · rw [if_neg h2] at he
        rcases List.mem_cons.mp he with rfl | he2
        · exact hb
        · exact ih hrest e he2

lemma scanInsert_skip (m : List (String × List String)) (f : DFile)
    (h : (f.loads && f.uid.isSome) = false) : scanInsert m f = m := by
  unfold scanInsert
  cases hl : f.loads with
  | false => simp
  | true =>
    cases hu : f.uid with
    | none => simp
    | some u => rw [hl, hu] at h; simp at h

lemma scanInsert_contrib (m : List (String × List String)) (f : DFile)
    (h : (f.loads && f.uid.isSome) = true) : scanInsert m f ≠ [] := by
  obtain ⟨hl, hu⟩ := Bool.and_eq_true_iff.mp h
  unfold scanInsert
  cases hu' : f.uid with
  | none => rw [hu'] at hu; simp at hu
  | some u =>
    simp only [hl, if_true, hu']
    exact mapInsert_ne_nil u f.path m

lemma buildSeriesMapAux_inv (files : List DFile) :
    ∀ m : List (String × List String),
      m.Pairwise (fun a b => a.1 < b.1) → (∀ e ∈ m, e.2 ≠ []) →
      (files.foldl scanInsert m).Pairwise (fun a b => a.1 < b.1) ∧
      (∀ e ∈ files.foldl scanInsert m, e.2 ≠ []) := by
  induction files with
  | nil => intro m hs hn; exact ⟨hs, hn⟩
  | cons f rest ih =>
    intro m hs hn
    rw [List.foldl_cons]
    apply ih
    · unfold scanInsert
      cases f.loads with
      | false => simpa using hs
      | true =>
        cases f.uid with
        | none => simpa using hs
        | some u => simpa using mapInsert_pairwise u f.path m hs
    · unfold scanInsert
      cases f.loads with
      | false => simpa using hn
      | true =>
        cases f.uid with
        | none => simpa using hn
        | some u => simpa using mapInsert_vals_ne_nil u f.path m hn

lemma buildSeriesMap_inv (files : List DFile) :
    (buildSeriesMap files).Pairwise (fun a b => a.1 < b.1) ∧
    (∀ e ∈ buildSeriesMap files, e.2 ≠ []) :=
  buildSeriesMapAux_inv files [] List.Pairwise.nil (by simp)

lemma selectAux_acc_le (m : List (String × List String)) :
    ∀ acc : String × Nat, acc.2 ≤ (selectAux acc m).2 := by
  induction m with
  | nil => intro acc; simp [selectAux]
  | cons e rest ih =>
    intro acc
    simp only [selectAux]
    by_cases h : acc.2 < e.2.length
    · rw [if_pos h]
      exact le_trans (le_of_lt h) (ih (e.1, e.2.length))
    · rw [if_neg h]
      exact ih acc

lemma selectAux_mem_le (m : List (String × List String)) :
    ∀ acc : String × Nat, ∀ e ∈ m, e.2.length ≤ (selectAux acc m).2 := by
  induction m with
  | nil => intro acc e he; exact absurd he (List.not_mem_nil e)
  | cons b rest ih =>
    intro acc e he
    rcases List.mem_cons.mp he with rfl | he2
    · simp only [selectAux]
      by_cases h : acc.2 < e.2.length
      · rw [if_pos h]
        exact selectAux_acc_le rest (e.1, e.2.length)
      · rw [if_neg h]
        exact le_trans (not_lt.mp h) (selectAux_acc_le rest acc)
    · simp only [selectAux]
      by_cases h : acc.2 < b.2.length
      · rw [if_pos h]; exact ih (b.1, b.2.length) e he2
      · rw [if_neg h]; exact ih acc e he2

lemma selectAux_eq_or (m : List (String × List String)) :
    ∀ acc : String × Nat,
      selectAux acc m = acc ∨
      (acc.2 < (selectAux acc m).2 ∧ ∃ e ∈ m, selectAux acc m = (e.1, e.2.length)) := by
  induction m with
  | nil => intro acc; exact Or.inl rfl
  | cons b rest ih =>
    intro acc
    simp only [selectAux]
    by_cases h : acc.2 < b.2.length
    · rw [if_pos h]
      rcases ih (b.1, b.2.length) with heq | ⟨hlt, e, he, heq⟩
      · right
        rw [heq]
        exact ⟨h, b, List.mem_cons_self b rest, rfl⟩
      · right
        exact ⟨lt_trans h hlt, e, List.mem_cons_of_mem b he, heq⟩
    · rw [if_neg h]
      rcases ih acc with heq | ⟨hlt, e, he, heq⟩
      · exact Or.inl heq
      · exact Or.inr ⟨hlt, e, List.mem_cons_of_mem b he, heq⟩

lemma selectAux_first_tie (m : List (String × List String)) :
    ∀ acc : String × Nat, m.Pairwise (fun a b => a.1 < b.1) →
      ∀ e ∈ m, e.2.length = (selectAux acc m).2 →
      selectAux acc m = acc ∨ (selectAux acc m).1 ≤ e.1 := by
  induction m with
  | nil => intro acc _ e he; exact absurd he (List.not_mem_nil e)
  | cons b rest ih =>
    intro acc hp e he hlen
    rcases List.pairwise_cons.mp hp with ⟨hb, hrest⟩
    simp only [selectAux] at hlen ⊢
    by_cases h : acc.2 < b.2.length
    · rw [if_pos h] at hlen ⊢
      right
      rcases List.mem_cons.mp he with rfl | he2
      · rcases selectAux_eq_or rest (e.1, e.2.length) with heq | ⟨hlt, e', he', heq⟩
        · rw [heq]
        · exfalso
          rw [← hlen] at hlt
          exact lt_irrefl _ hlt
      · rcases ih (b.1, b.2.length) hrest e he2 hlen with heq | hle
        · rw [heq]
          exact le_of_lt (hb e he2)
        · exact hle
    · rw [if_neg h] at hlen ⊢
      rcases List.mem_cons.mp he with rfl | he2
      · have h1 : e.2.length ≤ acc.2 := not_lt.mp h
        rcases selectAux_eq_or rest acc with heq | ⟨hlt, e', he', heq⟩
        · exact Or.inl heq
        · exfalso; omega
      · exact ih acc hrest e he2 hlen

/-- C2 counterexample: two files in discovery order, the first with series
UID "b", the second with series UID "a"; the two partitions tie at size
one, yet the strict-maximum walk over the key-ordered map picks "a", the
lexicographically smaller UID — not "b", the partition whose first member
appears earliest in input order. -/
theorem c2_cex :
    buildSeriesMap [⟨"p1", true, some "b"⟩, ⟨"p2", true, some "a"⟩]
      = [("a", ["p2"]), ("b", ["p1"])] ∧
    selectBest (buildSeriesMap [⟨"p1", true, some "b"⟩, ⟨"p2", true, some "a"⟩]) = ("a", 1) := by
  have hne : (("a" : String) = "b") = False := by
    apply eq_false; decide
  have hlt : (("a" : String) < "b") = True := by
    apply eq_true
    rw [String.lt_iff_toList_lt]
    decide
  have h1 : buildSeriesMap [⟨"p1", true, some "b"⟩, ⟨"p2", true, some "a"⟩]
      = [("a", ["p2"]), ("b", ["p1"])] := by
    simp [buildSeriesMap, scanInsert, mapInsert, hne, hlt]
  refine ⟨h1, ?_⟩
  rw [h1]
  decide

/-- C2 (amended): for every input whose series map is nonempty, the
selected series is one of the partitions, its size is maximal among all
partitions, and among the partitions of maximal size it is the one with
the least series identifier in lexicographic order (the iteration order of
std::map) — not the first-encountered one. -/
theorem c2_select_max_least_key (files : List DFile) (hne : buildSeriesMap files ≠ []) :
    (∃ vs, ((selectBest (buildSeriesMap files)).1, vs) ∈ buildSeriesMap files ∧
        vs.length = (selectBest (buildSeriesMap files)).2) ∧
    (∀ e ∈ buildSeriesMap files, e.2.length ≤ (selectBest (buildSeriesMap files)).2) ∧
    (∀ e ∈ buildSeriesMap files, e.2.length = (selectBest (buildSeriesMap files)).2 →
        (selectBest (buildSeriesMap files)).1 ≤ e.1) := by
  obtain ⟨hsorted, hvals⟩ := buildSeriesMap_inv files
  obtain ⟨e0, he0⟩ : ∃ e, e ∈ buildSeriesMap files := by
    cases hm : buildSeriesMap files with
    | nil => exact absurd hm hne
    | cons x xs => exact ⟨x, List.mem_cons_self x xs⟩
  have hpos : 1 ≤ e0.2.length := by
    have := hvals e0 he0
    cases hx : e0.2 with
    | nil => exact absurd hx this
    | cons a t => simp [hx]
  have hb2 : 1 ≤ (selectBest (buildSeriesMap files)).2 :=
    le_trans hpos (selectAux_mem_le (buildSeriesMap files) ("", 0) e0 he0)
  rcases selectAux_eq_or (buildSeriesMap files) ("", 0) with heq | ⟨_, e, he, heqv⟩
  · exfalso
    have : (selectBest (buildSeriesMap files)).2 = 0 := by
      unfold selectBest; rw [heq]
    omega
  · refine ⟨⟨e.2, ?_, ?_⟩, ?_, ?_⟩
    · show ((selectAux ("", 0) (buildSeriesMap files)).1, e.2) ∈ buildSeriesMap files
      rw [heqv]
      simpa using he
    · show e.2.length = (selectAux ("", 0) (buildSeriesMap files)).2
      rw [heqv]
    · intro e' he'
      exact selectAux_mem_le (buildSeriesMap files) ("", 0) e' he'
    · intro e' he' hlen
      rcases selectAux_first_tie (buildSeriesMap files) ("", 0) hsorted e' he' hlen with heq2 | hle
      · exfalso
        have : (selectBest (buildSeriesMap files)).2 = 0 := by
          unfold selectBest; rw [heq2]
        omega
      · exact hle

/-- C2 witness: the amended theorem applied to a single-file input. -/
theorem c2_witness :
    (selectBest (buildSeriesMap [⟨"p1", true, some "u"⟩])).1 ≤ "u" :=
  (c2_select_max_least_key [⟨"p1", true, some "u"⟩] (by decide)).2.2
    ("u", ["p1"]) (by decide) (by decide)

lemma foldl_scanInsert_filter (files : List DFile) :
    ∀ m : List (String × List String),
      files.foldl scanInsert m
        = (files.filter fun f => f.loads && f.uid.isSome).foldl scanInsert m := by
  induction files with
  | nil => intro m; rfl
  | cons f rest ih =>
    intro m
    cases hb : (f.loads && f.uid.isSome) with
    | false =>
      rw [List.foldl_cons, scanInsert_skip m f hb, List.filter_cons, hb]
      exact ih m
    | true =>
      rw [List.foldl_cons, List.filter_cons, hb]
      simp only [List.foldl_cons]
      exact ih (scanInsert m f)

lemma foldl_scanInsert_nil_iff (files : List DFile) :
    ∀ m : List (String × List String),
      files.foldl scanInsert m = []
        ↔ (m = [] ∧ ∀ f ∈ files, (f.loads && f.uid.isSome) = false) := by
  induction files with
  | nil => intro m; simp
  | cons f rest ih =>
    intro m
    rw [List.foldl_cons, ih (scanInsert m f)]
    constructor
    · rintro ⟨h1, h2⟩
      cases hb : (f.loads && f.uid.isSome) with
      | false =>
        rw [scanInsert_skip m f hb] at h1
        refine ⟨h1, ?_⟩
        intro g hg
        rcases List.mem_cons.mp hg with rfl | hg2
        · exact hb
        · exact h2 g hg2
      | true => exact absurd h1 (scanInsert_contrib m f hb)
    · rintro ⟨h1, h2⟩
      have hf := h2 f (List.mem_cons_self f rest)
      rw [scanInsert_skip m f hf]
      exact ⟨h1, fun g hg => h2 g (List.mem_cons_of_mem f hg)⟩

/-- C10: a file that decodes but yields no readable series UID contributes
to no partition — the series map over the input equals the series map over
only the files that load and carry a UID — and the map is empty (the
operation returns through the no-series early exit) exactly when no input
file both loads and has a UID, even if some files decoded successfully. -/
theorem c10_no_uid_excluded (files : List DFile) :
    buildSeriesMap files
      = buildSeriesMap (files.filter fun f => f.loads && f.uid.isSome) ∧
    (buildSeriesMap files = [] ↔ ∀ f ∈ files, (f.loads && f.uid.isSome) = false) := by
  constructor
  · exact foldl_scanInsert_filter files []
  · rw [buildSeriesMap, foldl_scanInsert_nil_iff files []]
    simp

/-- C10 witness: one file that loads but has no UID and one that fails to
load: the series map is empty and the no-series exit is taken. -/
theorem c10_witness :
    buildSeriesMap [⟨"p", true, none⟩, ⟨"q", false, some "u"⟩] = [] :=
  (c10_no_uid_excluded [⟨"p", true, none⟩, ⟨"q", false, some "u"⟩]).2.mpr (by decide)

lemma u64_ofNat (n : Nat) (h : n < 2 ^ 64) : u64 (n : ℤ) = n := by
  unfold u64
  rw [Int.emod_eq_of_lt (Int.natCast_nonneg n) (by exact_mod_cast h)]
  exact Int.toNat_natCast n

lemma getD_drop_add (l : List ℤ) (n i : Nat) (d : ℤ) :
    (l.drop n).getD i d = l.getD (n + i) d := by
  rw [List.getD_eq_getElem?_getD, List.getD_eq_getElem?_getD, List.getElem?_drop]

lemma getD_take_lt (l : List ℤ) (n i : Nat) (d : ℤ) (h : i < n) :
    (l.take n).getD i d = l.getD i d := by
  rw [List.getD_eq_getElem?_getD, List.getD_eq_getElem?_getD, List.getElem?_take, if_pos h]

lemma getD_append_lt (l₁ l₂ : List ℤ) (d : ℤ) (i : Nat) (h : i < l₁.length) :
    (l₁ ++ l₂).getD i d = l₁.getD i d := by
  induction l₁ generalizing i with
  | nil => simp at h
  | cons a t ih =>
    cases i with
    | zero => simp
    | succ j =>
      simp only [List.cons_append, List.getD_cons_succ]
      exact ih j (Nat.lt_of_succ_lt_succ h)

lemma getD_append_ge (l₁ l₂ : List ℤ) (d : ℤ) (i : Nat) (h : l₁.length ≤ i) :
    (l₁ ++ l₂).getD i d = l₂.getD (i - l₁.length) d := by
  induction l₁ generalizing i with
  | nil => simp
  | cons a t ih =>
    cases i with
    | zero => simp at h
    | succ j =>
      simp only [List.cons_append, List.getD_cons_succ, List.length_cons, Nat.succ_sub_succ]
      exact ih j (Nat.le_of_succ_le_succ h)

lemma getD_map_range (H : Nat) (g : Nat → ℤ) (y : Nat) (hy : y < H) (d : ℤ) :
    ((List.range H).map g).getD y d = g y := by
  have hylen : y < ((List.range H).map g).length := by simpa using hy
  rw [List.getD_eq_getElem _ _ hylen, List.getElem_map, List.getElem_range]

lemma flatten_length_const (slices : List (List ℤ)) (k : Nat)
    (h : ∀ s ∈ slices, s.length = k) :
    slices.flatten.length = slices.length * k := by
  induction slices with
  | nil => simp
  | cons s rest ih =>
    rw [List.flatten_cons, List.length_append, List.length_cons,
      h s (List.mem_cons_self s rest),
      ih (fun t ht => h t (List.mem_cons_of_mem s ht))]
    ring

lemma flatten_drop_take (slices : List (List ℤ)) (k : Nat)
    (h : ∀ s ∈ slices, s.length = k) :
    ∀ z : Nat, z < slices.length → (slices.flatten.drop (z * k)).take k = slices.getD z [] := by
  induction slices with
  | nil => intro z hz; simp at hz
  | cons s rest ih =>
    intro z hz
    have hs : s.length = k := h s (List.mem_cons_self s rest)
    cases z with
    | zero =>
      rw [List.flatten_cons, Nat.zero_mul, List.drop_zero, List.getD_cons_zero, ← hs,
        List.take_left]
    | succ z2 =>
      have hdrop : (s ++ rest.flatten).drop (k + z2 * k) = rest.flatten.drop (z2 * k) := by
        rw [← hs]
        exact List.drop_append (z2 * s.length)
      rw [List.flatten_cons, List.getD_cons_succ, Nat.succ_mul, Nat.add_comm (z2 * k) k, hdrop]
      exact ih (fun t ht => h t (List.mem_cons_of_mem s ht)) z2
        (Nat.lt_of_succ_lt_succ hz)

lemma flatMap_range_length (D W : Nat) (f : Nat → List ℤ)
    (hf : ∀ z, z < D → (f z).length = W) :
    ((List.range D).flatMap f).length = D * W := by
  induction D with
  | zero => simp
  | succ n ih =>
    rw [List.range_succ, List.flatMap_append]
    rw [List.length_append, ih (fun z hz => hf z (Nat.lt_succ_of_lt hz))]
    have hfn : ([n].flatMap f).length = W := by
      simp [hf n (Nat.lt_succ_self n)]
    rw [hfn]
    ring

lemma flatMap_range_getD (D W : Nat) (f : Nat → List ℤ)
    (hf : ∀ z, z < D → (f z).length = W) (z x : Nat) (hz : z < D) (hx : x < W) :
    ((List.range D).flatMap f).getD (z * W + x) 0 = (f z).getD x 0 := by
  induction D with
  | zero => exact absurd hz (Nat.not_lt_zero z)
  | succ n ih =>
    rw [List.range_succ, List.flatMap_append]
    have hlen1 : ((List.range n).flatMap f).length = n * W :=
      flatMap_range_length n W f (fun z2 hz2 => hf z2 (Nat.lt_succ_of_lt hz2))
    by_cases hzn : z < n
    · have hidx : z * W + x < ((List.range n).flatMap f).length := by
        rw [hlen1]
        have h1 : (z + 1) * W ≤ n * W := Nat.mul_le_mul_right W hzn
        have h2 : z * W + x < (z + 1) * W := by
          rw [Nat.succ_mul]; omega
        omega
      rw [getD_append_lt _ _ _ _ hidx]
      exact ih (fun z2 hz2 => hf z2 (Nat.lt_succ_of_lt hz2)) hzn
    · have hzeq : z = n := by omega
      subst hzeq
      have hge : ((List.range z).flatMap f).length ≤ z * W + x := by rw [hlen1]; omega
      rw [getD_append_ge _ _ _ _ hge, hlen1]
      have hsub : z * W + x - z * W = x := by omega
      rw [hsub]
      simp

/-- C4: round-trip of the packing and the depth-fixed (axial) extraction:
for every list of slices of the canonical size w*h packed in build order,
extracting the axial plane at any depth z in range reproduces exactly the
pixel buffer of the slice placed at depth z.  The hypothesis that the
volume is smaller than 2^64 samples discharges the size_t arithmetic of
the guard. -/
theorem c4_axial_roundtrip (slices : List (List ℤ)) (w h : Nat) (z : Nat)
    (hz : z < slices.length) (hs : ∀ s ∈ slices, s.length = w * h)
    (hbig : slices.length * (w * h) < 2 ^ 64) :
    axialPlane slices.flatten w h (z : ℤ) = slices.getD z [] := by
  have hlen : slices.flatten.length = slices.length * (w * h) :=
    flatten_length_const slices (w * h) hs
  by_cases hk : w * h = 0
  · have hslice : slices.getD z [] = [] := by
      rw [List.getD_eq_getElem slices [] hz]
      have hnil := hs (slices[z]) (slices.getElem_mem hz)
      rw [hk] at hnil
      exact List.length_eq_zero.mp hnil
    rw [hslice]
    simp only [axialPlane, axialRawOff, hk]
    simp
  · have hkpos : 0 < w * h := Nat.pos_of_ne_zero hk
    have hzbig : z < 2 ^ 64 :=
      lt_of_lt_of_le hz (le_trans (Nat.le_mul_of_pos_right _ hkpos) (le_of_lt hbig))
    have hoff : z * (w * h) < 2 ^ 64 :=
      lt_of_le_of_lt (Nat.mul_le_mul_right (w * h) (le_of_lt hz)) hbig
    have hsum : z * (w * h) + w * h ≤ slices.length * (w * h) := by
      have : (z + 1) * (w * h) ≤ slices.length * (w * h) := Nat.mul_le_mul_right _ hz
      rw [Nat.succ_mul] at this
      exact this
    simp only [axialPlane, axialRawOff]
    rw [u64_ofNat z hzbig, Nat.mod_eq_of_lt hoff,
      Nat.mod_eq_of_lt (lt_of_le_of_lt hsum hbig), if_pos (by rw [hlen]; exact hsum)]
    exact flatten_drop_take slices (w * h) hs z hz

/-- C4 witness: a two-slice 1 x 1 volume, extracting depth 1. -/
theorem c4_witness :
    axialPlane ([[1], [2]] : List (List ℤ)).flatten 1 1 ((1 : Nat) : ℤ)
      = ([[1], [2]] : List (List ℤ)).getD 1 [] :=
  c4_axial_roundtrip [[1], [2]] 1 1 1 (by decide) (by decide) (by norm_num)

/-- C5: for a volume laid out with the sample (x, y, z) at offset
z*W*H + y*W + x, the row-fixed (coronal) extraction at row r yields a
plane of W*D samples whose value at column x, row z is volume(x, r, z),
and the column-fixed (sagittal) extraction at column c yields a plane of
H*D samples whose value at column y, row z is volume(c, y, z); the size
hypothesis discharges the size_t arithmetic of the guards, which then all
pass. -/
theorem c5_extraction_samples (vol : List ℤ) (W H D r c z x y : Nat)
    (hlen : vol.length = W * H * D) (hbig : W * H * D < 2 ^ 64)
    (hr : r < H) (hc : c < W) (hz : z < D) (hx : x < W) (hy : y < H) :
    (coronalPlane vol W H D (r : ℤ)).length = W * D ∧
    (coronalPlane vol W H D (r : ℤ)).getD (z * W + x) 0
      = vol.getD (z * (W * H) + r * W + x) 0 ∧
    (sagittalPlane vol W H D (c : ℤ)).length = H * D ∧
    (sagittalPlane vol W H D (c : ℤ)).getD (z * H + y) 0
      = vol.getD (z * (W * H) + y * W + c) 0 := by
  have hH : 0 < H := Nat.lt_of_le_of_lt (Nat.zero_le y) hy
  have hD : 0 < D := Nat.lt_of_le_of_lt (Nat.zero_le z) hz
  have hWpos : 0 < W := Nat.lt_of_le_of_lt (Nat.zero_le x) hx
  have hWHD : H ≤ W * H * D := by
    have h1 : H ≤ H * D := Nat.le_mul_of_pos_right H hD
    have h2 : H * D ≤ W * (H * D) := Nat.le_mul_of_pos_left (H * D) hWpos
    calc H ≤ H * D := h1
      _ ≤ W * (H * D) := h2
      _ = W * H * D := by ring
  have hWbnd : W ≤ W * H * D := by
    have h1 : W ≤ W * H := Nat.le_mul_of_pos_right W hH
    have h2 : W * H ≤ W * H * D := Nat.le_mul_of_pos_right (W * H) hD
    exact le_trans h1 h2
  have hu_r : u64 (r : ℤ) = r := u64_ofNat r (lt_of_lt_of_le hr (le_trans hWHD (le_of_lt hbig)))
  have hu_c : u64 (c : ℤ) = c := u64_ofNat c (lt_of_lt_of_le hc (le_trans hWbnd (le_of_lt hbig)))
  have hkey : ∀ z2 < D, ∀ q < H, z2 * (W * H) + q * W + W ≤ W * H * D := by
    intro z2 hz2 q hq
    have e1 : (z2 + 1) * (W * H) ≤ D * (W * H) := Nat.mul_le_mul_right (W * H) hz2
    have e2 : (q + 1) * W ≤ H * W := Nat.mul_le_mul_right W hq
    calc z2 * (W * H) + q * W + W
        = z2 * (W * H) + (q + 1) * W := by ring
      _ ≤ z2 * (W * H) + H * W := Nat.add_le_add_left e2 _
      _ = (z2 + 1) * (W * H) := by ring
      _ ≤ D * (W * H) := e1
      _ = W * H * D := by ring
  -- every coronal row is a full copied row
  have hrow : ∀ z2, z2 < D →
      coronalRow vol W H (r : ℤ) z2 = (vol.drop (z2 * (W * H) + r * W)).take W := by
    intro z2 hz2
    have hbase : z2 * (W * H) + r * W + W ≤ W * H * D := hkey z2 hz2 r hr
    have hb1 : z2 * (W * H) + r * W < 2 ^ 64 := by omega
    have hb2 : z2 * (W * H) + r * W + W < 2 ^ 64 := by omega
    simp only [coronalRow, hu_r]
    rw [Nat.mod_eq_of_lt hb1, Nat.mod_eq_of_lt hb2, if_pos (by rw [hlen]; exact hbase)]
  have hrowlen : ∀ z2, z2 < D → (coronalRow vol W H (r : ℤ) z2).length = W := by
    intro z2 hz2
    rw [hrow z2 hz2, List.length_take, List.length_drop, hlen]
    have := hkey z2 hz2 r hr
    omega
  have hsagrow : ∀ z2, z2 < D →
      ((List.range H).map fun y2 =>
        if (z2 * (W * H) + y2 * W + u64 (c : ℤ)) % 2 ^ 64 < vol.length
        then vol.getD ((z2 * (W * H) + y2 * W + u64 (c : ℤ)) % 2 ^ 64) 0 else 0).length = H := by
    intro z2 _
    simp
  refine ⟨?_, ?_, ?_, ?_⟩
  · rw [coronalPlane, flatMap_range_length D W _ hrowlen]
    ring
  · rw [coronalPlane, flatMap_range_getD D W _ hrowlen z x hz hx, hrow z hz,
      getD_take_lt _ _ _ _ hx, getD_drop_add]
  · rw [sagittalPlane, flatMap_range_length D H _ hsagrow]
    ring
  · rw [sagittalPlane, flatMap_range_getD D H _ hsagrow z y hz hy,
      getD_map_range H _ y hy]
    have hidx : z * (W * H) + y * W + c < W * H * D := by
      have := hkey z hz y hy
      omega
    rw [hu_c, Nat.mod_eq_of_lt (lt_trans hidx hbig), if_pos (by rw [hlen]; exact hidx)]

/-- C5 witness: a concrete 2 x 2 x 2 volume, sampling the coronal plane at
row 1 and the sagittal plane at column 1. -/
theorem c5_witness :
    (coronalPlane [0, 1, 2, 3, 4, 5, 6, 7] 2 2 2 ((1 : Nat) : ℤ)).getD (1 * 2 + 1) 0
      = ([0, 1, 2, 3, 4, 5, 6, 7] : List ℤ).getD (1 * (2 * 2) + 1 * 2 + 1) 0 :=
  (c5_extraction_samples [0, 1, 2, 3, 4, 5, 6, 7] 2 2 2 1 1 1 1 1 (by decide) (by norm_num)
    (by decide) (by decide) (by decide) (by decide) (by decide)).2.1

lemma scanFold_buffer (files : List Source) :
    ∀ acc : ViewerState × List SliceRaw,
      (files.foldl scanStep acc).1.volumeData = acc.1.volumeData ∧
      (files.foldl scanStep acc).1.volDepth = acc.1.volDepth := by
  induction files with
  | nil => intro acc; exact ⟨rfl, rfl⟩
  | cons f rest ih =>
    intro acc
    rw [List.foldl_cons]
    have hstep : (scanStep acc f).1.volumeData = acc.1.volumeData ∧
        (scanStep acc f).1.volDepth = acc.1.volDepth := by
      cases hl : f.loads with
      | false => simp [scanStep, hl]
      | true =>
        refine ⟨?_, ?_⟩ <;>
          · simp only [scanStep, hl, eq_self_iff_true, if_true]
            repeat' split
            all_goals rfl
    obtain ⟨h1, h2⟩ := ih (scanStep acc f)
    exact ⟨h1.trans hstep.1, h2.trans hstep.2⟩

/-- C1 state used by the counterexample: a previously loaded 2 x 2 x 1
volume. -/
def c1Prev : ViewerState := ⟨[7, 7, 7, 7], 2, 2, 1, 1, 1, 1, "N", "I"⟩

/-- C1 file used by the counterexample: it loads with 3 x 3 dimensions but
its pixel data fails to decode, so the rebuild retains zero slices. -/
def c1FailFile : Source := ⟨true, 3, 3, none, none, none, none, false, 0, []⟩

/-- C1 counterexample: a rebuild that fails after a prior successful load
(the only candidate slice fails pixel decoding, so zero sources survive)
does NOT leave every recorded field as it was: line 449 has already reset
volWidth/volHeight, and the first loadable file overwrote them with its
own dimensions (3), while the prior volume had width 2.  The sample buffer
itself does survive, so the failed state is a visibly mixed blend of old and new fields. -/
theorem c1_cex :
    (loadTransition c1Prev [c1FailFile]).volWidth = 3 ∧
    c1Prev.volWidth = 2 ∧
    (loadTransition c1Prev [c1FailFile]).volumeData = c1Prev.volumeData ∧
    loadTransition c1Prev [c1FailFile] ≠ c1Prev := by
  decide

/-- C1 (amended): when a rebuild fails because zero sources survive
decoding and the dimension filter, the previously built sample buffer and
the recorded depth are preserved (the early return happens before they are
touched), but the width, height, spacing and subject metadata may already
have been overwritten by the scan — the failure is not atomic. -/
theorem c1_failed_build_preserves_buffer (s : ViewerState) (files : List Source)
    (hfail : (scanFiles s files).2 = []) :
    (loadTransition s files).volumeData = s.volumeData ∧
    (loadTransition s files).volDepth = s.volDepth := by
  obtain ⟨h1, h2⟩ := scanFold_buffer files ({ s with volWidth := 0, volHeight := 0 }, [])
  simp only [loadTransition]
  rw [if_pos hfail]
  exact ⟨h1, h2⟩

/-- C1 witness: the amended preservation applied to the concrete failing
rebuild of the counterexample. -/
theorem c1_witness :
    (loadTransition c1Prev [c1FailFile]).volumeData = c1Prev.volumeData ∧
    (loadTransition c1Prev [c1FailFile]).volDepth = c1Prev.volDepth :=
  c1_failed_build_preserves_buffer c1Prev [c1FailFile] (by decide)

lemma scanFold_frozen (files : List Source) :
    ∀ acc : ViewerState × List SliceRaw, acc.1.volWidth ≠ 0 →
      (files.foldl scanStep acc).1 = acc.1 := by
  induction files with
  | nil => intro acc _; rfl
  | cons f rest ih =>
    intro acc hw
    rw [List.foldl_cons]
    have hstep : (scanStep acc f).1 = acc.1 := by
      cases hl : f.loads with
      | false => simp [scanStep, hl]
      | true =>
        simp only [scanStep, hl, eq_self_iff_true, if_true, if_neg hw]
        repeat' split
        all_goals rfl
    have hw2 : (scanStep acc f).1.volWidth ≠ 0 := by rw [hstep]; exact hw
    exact (ih (scanStep acc f) hw2).trans hstep

lemma scanFiles_first_meta (s : ViewerState) (f : Source) (rest : List Source)
    (hl : f.loads = true) (hw : f.cols ≠ 0) :
    (scanFiles s (f :: rest)).1 =
      { s with
        volWidth := f.cols
        volHeight := f.rows
        pxSpcY := (f.spacing.map Prod.fst).getD s.pxSpcY
        pxSpcX := (f.spacing.map Prod.snd).getD s.pxSpcX
        sliceThick := f.thickness.getD s.sliceThick
        patientName := f.pname.getD s.patientName
        patientID := f.pid.getD s.patientID } := by
  unfold scanFiles
  rw [List.foldl_cons]
  have hstep : (scanStep ({ s with volWidth := 0, volHeight := 0 }, []) f).1 =
      { s with
        volWidth := f.cols
        volHeight := f.rows
        pxSpcY := (f.spacing.map Prod.fst).getD s.pxSpcY
        pxSpcX := (f.spacing.map Prod.snd).getD s.pxSpcX
        sliceThick := f.thickness.getD s.sliceThick
        patientName := f.pname.getD s.patientName
        patientID := f.pid.getD s.patientID } := by
    simp only [scanStep, hl, eq_self_iff_true, if_true]
    repeat' split
    all_goals rfl
  have hw2 : (scanStep ({ s with volWidth := 0, volHeight := 0 }, []) f).1.volWidth ≠ 0 := by
    rw [hstep]; exact hw
  exact (scanFold_frozen rest _ hw2).trans hstep

/-- C9 default state used by the counterexample. -/
def c9S0 : ViewerState := ⟨[], 0, 0, 0, 1, 1, 1, "Unknown", "Unknown"⟩

/-- C9 first file: loads and carries spacing and thickness 5, but its
pixel data fails to decode, so it is NOT retained. -/
def c9FileA : Source := ⟨true, 4, 4, some (5, 5), some 5, none, none, false, 0, []⟩

/-- C9 second file: decodes fine (it is the first retained source) and
carries negative spacing and thickness -2. -/
def c9FileB : Source :=
  ⟨true, 4, 4, some (-2, -2), some (-2), none, none, true, 1, List.replicate 16 0⟩

/-- C9 counterexample: the build retains only the second file, whose
thickness is -2, yet the recorded thickness is 5 — it was captured from
the first file that LOADED, not from the first retained source — and the
value the claim demands (the retained thickness -2 clamped to 1.0) is not
what the Volume records. -/
theorem c9_cex :
    (scanFiles c9S0 [c9FileA, c9FileB]).2 = [⟨1, List.replicate 16 0⟩] ∧
    c9FileB.thickness = some (-2) ∧
    (loadTransition c9S0 [c9FileA, c9FileB]).sliceThick = 5 ∧
    (loadTransition c9S0 [c9FileA, c9FileB]).sliceThick ≠ (if (-2 : ℚ) ≤ 0 then 1 else (-2)) := by
  decide

/-- C9 (amended): the recorded in-plane spacing, slice thickness and
subject metadata are taken from the first source file that successfully
loads (whether or not it survives pixel decoding), with absent tags
leaving the previous values; values ≤ 0 are NOT replaced in the recorded
Volume — the substitution by 1.0 happens at render time, per view, via
the positivity test of lines 517-519. -/
theorem c9_metadata_first_loadable (s : ViewerState) (f : Source) (rest : List Source)
    (hl : f.loads = true) (hw : f.cols ≠ 0) :
    ((loadTransition s (f :: rest)).sliceThick = f.thickness.getD s.sliceThick ∧
     (loadTransition s (f :: rest)).pxSpcX = (f.spacing.map Prod.snd).getD s.pxSpcX ∧
     (loadTransition s (f :: rest)).pxSpcY = (f.spacing.map Prod.fst).getD s.pxSpcY ∧
     (loadTransition s (f :: rest)).patientName = f.pname.getD s.patientName) ∧
    (∀ q : ℚ, q ≤ 0 → effSpacing q = 1) ∧ (∀ q : ℚ, 0 < q → effSpacing q = q) := by
  have hmeta := scanFiles_first_meta s f rest hl hw
  refine ⟨?_, fun q hq => by simp [effSpacing, not_lt.mpr hq], fun q hq => by simp [effSpacing, hq]⟩
  simp only [loadTransition]
  split <;> (rw [hmeta]; exact ⟨rfl, rfl, rfl, rfl⟩)

/-- C9 witness: the amended theorem applied to the single-file load of the
first counterexample file. -/
theorem c9_witness :
    (loadTransition c9S0 [c9FileA]).sliceThick = c9FileA.thickness.getD c9S0.sliceThick ∧
    (loadTransition c9S0 [c9FileA]).pxSpcX = (c9FileA.spacing.map Prod.snd).getD c9S0.pxSpcX ∧
    (loadTransition c9S0 [c9FileA]).pxSpcY = (c9FileA.spacing.map Prod.fst).getD c9S0.pxSpcY ∧
    (loadTransition c9S0 [c9FileA]).patientName = c9FileA.pname.getD c9S0.patientName :=
  (c9_metadata_first_loadable c9S0 c9FileA [] rfl (by decide)).1
